import Mathlib

/-!
A shallow embedding of the frontmatter lexer of the swap repository
(the lexer source file together with its parse/CLI callers), and proofs
about its observable behaviour.

The Go lexer scans a byte slice, decoding one UTF-8 rune per `next` call,
and sends `item` values over a channel.  The embedding models the byte
slice as `List Nat` (each element a byte value), the rune type as `Int`
(the end-of-input sentinel is `-1`, as in the source), and the channel as
the ordered list of events of a run.  An event is either an emitted item
or the span of bytes discarded by an `ignore` call, so that the byte
accounting of the run is visible in the model.  Loops are driven by an
explicit fuel counter; `run` supplies `input.length + 1` fuel, and the
development proves this is always sufficient, which is the termination
argument for the Go loops (every loop iteration strictly advances the
read position).
-/

namespace Swap

/-- UTF-8 decoding of the first rune of a byte sequence, as Go's
`utf8.DecodeRune`: returns the rune value and its width in bytes.  Invalid
or truncated encodings give the replacement rune `0xFFFD` with width 1
(width 0 on empty input).  Multi-byte values are written with arithmetic
(`(b0 - 0xC0) * 64 + (b1 - 0x80)` and so on), which on the accepted
ranges coincides with the bit masking in the Go library. -/
def decodeRune : List Nat → Nat × Nat
  | [] => (0xFFFD, 0)
  | b0 :: rest =>
    if b0 < 0x80 then (b0, 1)
    else if b0 < 0xC2 then (0xFFFD, 1)
    else if b0 < 0xE0 then
      match rest with
      | b1 :: _ =>
        if 0x80 ≤ b1 ∧ b1 < 0xC0 then ((b0 - 0xC0) * 64 + (b1 - 0x80), 2)
        else (0xFFFD, 1)
      | [] => (0xFFFD, 1)
    else if b0 < 0xF0 then
      match rest with
      | b1 :: b2 :: _ =>
        if (if b0 = 0xE0 then 0xA0 ≤ b1 ∧ b1 < 0xC0
            else if b0 = 0xED then 0x80 ≤ b1 ∧ b1 < 0xA0
            else 0x80 ≤ b1 ∧ b1 < 0xC0) ∧ 0x80 ≤ b2 ∧ b2 < 0xC0 then
          ((b0 - 0xE0) * 4096 + (b1 - 0x80) * 64 + (b2 - 0x80), 3)
        else (0xFFFD, 1)
      | _ => (0xFFFD, 1)
    else if b0 < 0xF5 then
      match rest with
      | b1 :: b2 :: b3 :: _ =>
        if (if b0 = 0xF0 then 0x90 ≤ b1 ∧ b1 < 0xC0
            else if b0 = 0xF4 then 0x80 ≤ b1 ∧ b1 < 0x90
            else 0x80 ≤ b1 ∧ b1 < 0xC0) ∧ 0x80 ≤ b2 ∧ b2 < 0xC0 ∧ 0x80 ≤ b3 ∧ b3 < 0xC0 then
          ((b0 - 0xF0) * 262144 + (b1 - 0x80) * 4096 + (b2 - 0x80) * 64 + (b3 - 0x80), 4)
        else (0xFFFD, 1)
      | _ => (0xFFFD, 1)
    else (0xFFFD, 1)

/-- itemType identifies the type of lex items (source: `itemType`). -/
inductive itemType : Type
  | itemError
  | itemFrontmatterTOML
  | itemFrontmatterYAML
  | itemFrontmatterJSON
  | itemMarkdown
  | itemEOF
deriving DecidableEq

export itemType (itemError itemFrontmatterTOML itemFrontmatterYAML itemFrontmatterJSON itemMarkdown itemEOF)

/-- item represents a token returned from the scanner (source: `item`).
The value is the covered byte span; for `itemError` it is the message
bytes. -/
structure item : Type where
  typ : itemType
  val : List Nat
deriving DecidableEq

/-- The byte values of an ASCII string, used to write error messages and
test inputs.  For ASCII text this agrees with the UTF-8 bytes the Go code
produces with `[]byte(...)`. -/
def msgBytes (s : String) : List Nat := s.data.map Char.toNat

/-- lexer holds the state of the scanner (source: `lexer`).  The channel
is not part of the state here: emitted items are collected in the result
of the state functions instead. -/
@[ext]
structure lexer : Type where
  input : List Nat
  start : Nat
  pos : Nat
  width : Nat
deriving DecidableEq

/-- The end-of-input sentinel returned by `next` (source: `const eof = -1`). -/
def eof : Int := -1

/-- next returns the next rune in the input and the updated state
(source: `next`).  At end of input it records width 0 and returns the
sentinel; otherwise it decodes one rune at `pos` and advances `pos` by
its width. -/
def next (l : lexer) : Int × lexer :=
  if l.input.length ≤ l.pos then (eof, { l with width := 0 })
  else
    (((decodeRune (l.input.drop l.pos)).1 : Int),
      { l with pos := l.pos + (decodeRune (l.input.drop l.pos)).2,
               width := (decodeRune (l.input.drop l.pos)).2 })

/-- backup steps back one rune (source: `backup`).  In the source `pos`
is a Go int; here `pos` is a natural number and the subtraction is
truncated, which agrees with the source in every state the machine
reaches (backup is only used directly after a `next`, so `width ≤ pos`). -/
def backup (l : lexer) : lexer := { l with pos := l.pos - l.width }

/-- peek returns but does not consume the next rune (source: `peek`),
as `next` followed by `backup`. -/
def peek (l : lexer) : Int × lexer :=
  ((next l).1, backup (next l).2)

/-- ignore skips over the pending input before this point (source:
`ignore`). -/
def ignore (l : lexer) : lexer := { l with start := l.pos }

/-- The pending span `input[start:pos]` of the scanner. -/
def pending (l : lexer) : List Nat := (l.input.drop l.start).take (l.pos - l.start)

/-- emit passes an item covering the pending span back to the client and
moves `start` up to `pos` (source: `emit`). -/
def emit (l : lexer) (t : itemType) : item × lexer :=
  (⟨t, pending l⟩, { l with start := l.pos })

/-- consumeCRLF consumes the next runes if they end a line (source:
`consumeCRLF`): the loop over the two runes carriage-return then
line-feed is unrolled, each tried with `next` and undone with `backup`
when it does not match. -/
def consumeCRLF (l : lexer) : Bool × lexer :=
  let l1 := if (next l).1 == 13 then (next l).2 else backup (next l).2
  let c1 := (next l).1 == 13
  let l2 := if (next l1).1 == 10 then (next l1).2 else backup (next l1).2
  let c2 := (next l1).1 == 10
  (c1 || c2, l2)

/-- hasPrefixBytes checks whether the input at `pos` begins with the
given literal (source: `hasPrefix`, via `bytes.HasPrefix`). -/
def hasPrefixBytes (l : lexer) (p : List Nat) : Bool :=
  p.isPrefixOf (l.input.drop l.pos)

/-- The closing/opening TOML fence `+++` as bytes (source: `[]byte("+++")`). -/
def tomlDelim : List Nat := [43, 43, 43]

/-- The closing/opening YAML fence `---` as bytes (source: `[]byte("---")`). -/
def yamlDelim : List Nat := [45, 45, 45]

/-- isEndOfLine reports whether the rune ends a line (source:
`isEndOfLine`): carriage return (13) or line feed (10). -/
def isEndOfLine (r : Int) : Bool := r == 13 || r == 10

/-- One observable event of a run: an item sent on the channel, or a
pending span discarded by an `ignore` call. -/
inductive event : Type
  | emitted : item → event
  | discarded : List Nat → event
deriving DecidableEq

/-- The items of an event list, in order (the channel contents of the
run). -/
def itemsOf : List event → List item
  | [] => []
  | event.emitted i :: evs => i :: itemsOf evs
  | event.discarded _ :: evs => itemsOf evs

/-- lexDone emits the end marker and stops (source: `lexDone`). -/
def lexDone (l : lexer) : List event :=
  [event.emitted (emit l itemEOF).1]

/-- The item kind and value of an error event (source: `errorf`, which
sends an error item and makes the run stop by returning a nil state). -/
def errorEvents (msg : List Nat) : List event :=
  [event.emitted ⟨itemError, msg⟩]

/-- lexMarkdown consumes every remaining rune, emits the remainder as a
single markdown item and moves to `lexDone` (source: `lexMarkdown`).
The fuel bounds the number of loop iterations; `none` means the fuel ran
out, which the development proves never happens for the fuel `run`
supplies. -/
def lexMarkdown (fuel : Nat) (l : lexer) : Option (List event) :=
  match fuel with
  | 0 => none
  | fuel + 1 =>
    if (next l).1 = eof then
      some (event.emitted (emit (next l).2 itemMarkdown).1 :: lexDone (emit (next l).2 itemMarkdown).2)
    else lexMarkdown fuel (next l).2

/-- The break branch of the closing-fence search loop shared by
`lexFrontmatterTOML` and `lexFrontmatterYAML` (source): emit the
accumulated span, advance past the three fence bytes, consume the
trailing line break, discard the pending fence bytes, and hand over to
`lexMarkdown`. -/
def fenceBreak (kind : itemType) (fuel : Nat) (l1 : lexer) : Option (List event) :=
  let e := emit l1 kind
  let l2 := { e.2 with pos := e.2.pos + 3 }
  let l3 := (consumeCRLF l2).2
  (lexMarkdown fuel (ignore l3)).map
    (fun evs => event.emitted e.1 :: event.discarded (pending l3) :: evs)

/-- The closing-fence search loop of `lexFrontmatterTOML` and
`lexFrontmatterYAML` (source: the `for` loops of the two functions,
which are identical up to the fence bytes, the item kind, and the error
message): scan rune by rune until an end-of-line rune is followed by the
closing fence; end of input first is an error. -/
def fenceLoop (delim : List Nat) (kind : itemType) (msg : List Nat) :
    Nat → lexer → Option (List event)
  | 0, _ => none
  | fuel + 1, l =>
    if (next l).1 = eof then some (errorEvents msg)
    else if isEndOfLine (next l).1 && hasPrefixBytes (next l).2 delim then
      fenceBreak kind fuel (next l).2
    else fenceLoop delim kind msg fuel (next l).2

/-- The TOML/YAML frontmatter state shared by `lexFrontmatterTOML` and
`lexFrontmatterYAML` (source: the bodies of the two functions, identical
up to the fence rune `c`, the fence bytes, the item kind and the two
messages): expect three fence runes (the source loop `for i := 0; i < 3`
is unrolled), discard the fence and its trailing line break, then search
for the closing fence. -/
def lexFrontmatterFence (c : Int) (delim : List Nat) (kind : itemType)
    (imsg emsg : List Nat) (fuel : Nat) (l : lexer) : Option (List event) :=
  if (next l).1 ≠ c then some (errorEvents imsg)
  else if (next (next l).2).1 ≠ c then some (errorEvents imsg)
  else if (next (next (next l).2).2).1 ≠ c then some (errorEvents imsg)
  else
    let l3 := (consumeCRLF (next (next (next l).2).2).2).2
    (fenceLoop delim kind emsg fuel (ignore l3)).map
      (fun evs => event.discarded (pending l3) :: evs)

/-- lexFrontmatterTOML (source): the fence state with the `+` rune (43),
the `+++` fence and the TOML messages. -/
def lexFrontmatterTOML (fuel : Nat) (l : lexer) : Option (List event) :=
  lexFrontmatterFence 43 tomlDelim itemFrontmatterTOML
    (msgBytes ("invalid TOML delimiter"))
    (msgBytes ("EOF looking for end TOML front matter delimiter")) fuel l

/-- lexFrontmatterYAML (source): the fence state with the `-` rune (45),
the `---` fence and the YAML messages. -/
def lexFrontmatterYAML (fuel : Nat) (l : lexer) : Option (List event) :=
  lexFrontmatterFence 45 yamlDelim itemFrontmatterYAML
    (msgBytes ("invalid YAML delimiter"))
    (msgBytes ("EOF looking for end YAML front matter delimiter")) fuel l

/-- The tail of `lexFrontmatterJSON` after its loop breaks (source):
consume a trailing line break, emit the whole pending span as a JSON
frontmatter item, and hand over to `lexMarkdown`. -/
def jsonFinish (fuel : Nat) (l : lexer) : Option (List event) :=
  let l1 := (consumeCRLF l).2
  let e := emit l1 itemFrontmatterJSON
  (lexMarkdown fuel e.2).map (fun evs => event.emitted e.1 :: evs)

/-- The state reached after one iteration of the `lexFrontmatterJSON`
loop body (source: the `switch`): the rune is consumed, and a backslash
(92) consumes one additional rune unconditionally. -/
def jsonStep (l : lexer) : lexer :=
  if (next l).1 = 92 then (next (next l).2).2 else (next l).2

/-- The quote flag after one iteration of the `lexFrontmatterJSON` loop
body (source: the `switch`): it toggles exactly on a double quote rune
(34). -/
def jsonQuote (inQuote : Bool) (l : lexer) : Bool :=
  if (next l).1 = 34 then !inQuote else inQuote

/-- The nesting level after one iteration of the `lexFrontmatterJSON`
loop body (source: the `switch`): it changes exactly on an unquoted
opening (123) or closing (125) brace rune. -/
def jsonLevel (level : Int) (inQuote : Bool) (l : lexer) : Int :=
  if (next l).1 = 123 ∧ inQuote = false then level + 1
  else if (next l).1 = 125 ∧ inQuote = false then level - 1
  else level

/-- The loop of `lexFrontmatterJSON` (source).  The Go `switch` has
mutually exclusive cases on the rune, rendered as the three parallel
updates `jsonStep`, `jsonQuote` and `jsonLevel`.  After each iteration
the loop breaks when the level is zero. -/
def jsonLoop (fuel : Nat) (l : lexer) (inQuote : Bool) (level : Int) : Option (List event) :=
  match fuel with
  | 0 => none
  | fuel + 1 =>
    if (next l).1 = eof then
      some (errorEvents (msgBytes ("unexpected EOF parsing JSON front matter")))
    else if jsonLevel level inQuote l = 0 then jsonFinish fuel (jsonStep l)
    else jsonLoop fuel (jsonStep l) (jsonQuote inQuote l) (jsonLevel level inQuote l)

/-- lexFrontmatterJSON (source): run the brace-matching loop with the
quote flag off and nesting level zero. -/
def lexFrontmatterJSON (fuel : Nat) (l : lexer) : Option (List event) :=
  jsonLoop fuel l false 0

/-- lexStart (source): peek the first rune and dispatch on it. -/
def lexStart (fuel : Nat) (l : lexer) : Option (List event) :=
  if (peek l).1 = 43 then lexFrontmatterTOML fuel (peek l).2
  else if (peek l).1 = 45 then lexFrontmatterYAML fuel (peek l).2
  else if (peek l).1 = 123 then lexFrontmatterJSON fuel (peek l).2
  else lexMarkdown fuel (peek l).2

/-- run starts the state machine on a fresh scanner over the input
(source: `lex` / `run`).  The fuel `input.length + 1` is proved
sufficient below. -/
def run (bs : List Nat) : Option (List event) :=
  lexStart (bs.length + 1) ⟨bs, 0, 0, 0⟩

/-- The kind of the last item of a list, if any. -/
def lastTyp : List item → Option itemType
  | [] => none
  | [i] => some i.typ
  | _ :: i :: is => lastTyp (i :: is)

/-- The input bytes an event accounts for: the covered span of an
emitted non-error, non-end-marker item, or a discarded span. -/
def eventBytes : event → List Nat
  | event.emitted i => if i.typ = itemError ∨ i.typ = itemEOF then [] else i.val
  | event.discarded bs => bs

/-- All input bytes accounted for by a run, in order. -/
def coveredBytes : List event → List Nat
  | [] => []
  | e :: evs => eventBytes e ++ coveredBytes evs

/-- The scanner-state well-formedness invariant of the data model:
`start ≤ pos ≤ length input` (the lower bound `0 ≤ start` of the
specification is part of the type here, positions being natural
numbers). -/
def Inv (l : lexer) : Prop := l.start ≤ l.pos ∧ l.pos ≤ l.input.length

instance (l : lexer) : Decidable (Inv l) := by unfold Inv; infer_instance

section Lemmas

/-- Decoding one rune from a non-empty byte sequence consumes at least
one byte. -/
theorem decodeRune_width_pos (bs : List Nat) (h : bs ≠ []) : 1 ≤ (decodeRune bs).2 := by
  match bs with
  | [] => exact absurd rfl h
  | b :: rest =>
    simp only [decodeRune]
    repeat' split
    all_goals simp

/-- Decoding one rune never consumes more bytes than are present. -/
theorem decodeRune_width_le (bs : List Nat) : (decodeRune bs).2 ≤ bs.length := by
  match bs with
  | [] => simp [decodeRune]
  | b :: rest =>
    simp only [decodeRune]
    repeat' split
    all_goals simp_all [List.length_cons]

/-- An ASCII byte decodes to itself, with width one. -/
theorem decodeRune_ascii (b : Nat) (rest : List Nat) (h : b < 0x80) :
    decodeRune (b :: rest) = (b, 1) := by
  simp only [decodeRune, if_pos h]

/-- A non-ASCII leading byte never decodes to an ASCII rune: the result
is at least `0x80` (a real multi-byte value or the replacement rune). -/
theorem decodeRune_fst_ge (b : Nat) (rest : List Nat) (h : 0x80 ≤ b) :
    0x80 ≤ (decodeRune (b :: rest)).1 := by
  simp only [decodeRune]
  repeat' split
  all_goals omega

/-- The first rune of a byte sequence differs from a given ASCII value
whenever the first byte does. -/
theorem decodeRune_fst_ne (b : Nat) (rest : List Nat) (c : Nat) (hc : c < 0x80)
    (hb : b ≠ c) : (decodeRune (b :: rest)).1 ≠ c := by
  by_cases h : b < 0x80
  · rw [decodeRune_ascii b rest h]; exact hb
  · have := decodeRune_fst_ge b rest (by omega)
    omega

@[simp] theorem backup_input (l : lexer) : (backup l).input = l.input := rfl

@[simp] theorem backup_start (l : lexer) : (backup l).start = l.start := rfl

@[simp] theorem backup_pos (l : lexer) : (backup l).pos = l.pos - l.width := rfl

@[simp] theorem next_input (l : lexer) : (next l).2.input = l.input := by
  simp only [next]; split <;> rfl

@[simp] theorem next_start (l : lexer) : (next l).2.start = l.start := by
  simp only [next]; split <;> rfl

/-- Reading a rune never moves the cursor backwards. -/
theorem next_pos_ge (l : lexer) : l.pos ≤ (next l).2.pos := by
  simp only [next]; split
  · simp
  · simp

/-- Reading a rune never moves the cursor past the end of the input. -/
theorem next_pos_le (l : lexer) (h : l.pos ≤ l.input.length) :
    (next l).2.pos ≤ l.input.length := by
  simp only [next]; split
  · simpa using h
  · have := decodeRune_width_le (l.input.drop l.pos)
    simp only [List.length_drop] at this
    simp
    omega

/-- `next` returns the end-of-input sentinel exactly at the end of the
input. -/
theorem next_eof_iff (l : lexer) : (next l).1 = eof ↔ l.input.length ≤ l.pos := by
  simp only [next]; split
  · simpa
  · rename_i h
    simp only [eof]
    constructor
    · intro hc
      omega
    · intro hc
      omega

/-- Away from the end of the input, `next` strictly advances the
cursor. -/
theorem next_pos_lt (l : lexer) (h : ¬(next l).1 = eof) : l.pos < (next l).2.pos := by
  rw [next_eof_iff] at h
  have hne : l.input.drop l.pos ≠ [] := by
    intro hc
    have := congrArg List.length hc
    simp only [List.length_drop, List.length_nil] at this
    omega
  have := decodeRune_width_pos (l.input.drop l.pos) hne
  simp only [next]
  split
  · omega
  · simp
    omega

/-- At the end of the input, `next` leaves the cursor in place. -/
theorem next_pos_eof (l : lexer) (h : l.input.length ≤ l.pos) : (next l).2.pos = l.pos := by
  simp only [next, if_pos h]

/-- A `backup` immediately after a `next` restores the cursor: this is
the one way the state machine uses `backup`. -/
theorem backup_next_pos (l : lexer) : (backup (next l).2).pos = l.pos := by
  simp only [next]; split
  · simp
  · simp

@[simp] theorem peek_input (l : lexer) : (peek l).2.input = l.input := by
  simp [peek]

@[simp] theorem peek_start (l : lexer) : (peek l).2.start = l.start := by
  simp [peek]

@[simp] theorem peek_pos (l : lexer) : (peek l).2.pos = l.pos := by
  simp only [peek, backup_next_pos]

/-- The state after one attempt of the `consumeCRLF` loop body (a `next`
kept on match, undone by `backup` otherwise) keeps the input. -/
theorem tryRune_input (r : Int) (l : lexer) :
    (if (next l).1 == r then (next l).2 else backup (next l).2).input = l.input := by
  split <;> simp

/-- As `tryRune_input`, for the `start` field. -/
theorem tryRune_start (r : Int) (l : lexer) :
    (if (next l).1 == r then (next l).2 else backup (next l).2).start = l.start := by
  split <;> simp

/-- One attempt of the `consumeCRLF` loop body never moves the cursor
backwards. -/
theorem tryRune_ge (r : Int) (l : lexer) :
    l.pos ≤ (if (next l).1 == r then (next l).2 else backup (next l).2).pos := by
  split
  · exact next_pos_ge l
  · exact le_of_eq (backup_next_pos l).symm

/-- One attempt of the `consumeCRLF` loop body never moves the cursor
past the end of the input. -/
theorem tryRune_le (r : Int) (l : lexer) (h : l.pos ≤ l.input.length) :
    (if (next l).1 == r then (next l).2 else backup (next l).2).pos ≤ l.input.length := by
  split
  · exact next_pos_le l h
  · rw [backup_next_pos]; exact h

@[simp] theorem consumeCRLF_input (l : lexer) : (consumeCRLF l).2.input = l.input := by
  simp only [consumeCRLF]
  rw [tryRune_input, tryRune_input]

@[simp] theorem consumeCRLF_start (l : lexer) : (consumeCRLF l).2.start = l.start := by
  simp only [consumeCRLF]
  rw [tryRune_start, tryRune_start]

/-- `consumeCRLF` never moves the cursor backwards. -/
theorem consumeCRLF_pos_ge (l : lexer) : l.pos ≤ (consumeCRLF l).2.pos := by
  simp only [consumeCRLF]
  exact le_trans (tryRune_ge 13 l) (tryRune_ge 10 _)

/-- `consumeCRLF` never moves the cursor past the end of the input. -/
theorem consumeCRLF_pos_le (l : lexer) (h : l.pos ≤ l.input.length) :
    (consumeCRLF l).2.pos ≤ l.input.length := by
  simp only [consumeCRLF]
  set l1 := if (next l).1 == 13 then (next l).2 else backup (next l).2 with hl1
  have hi : l1.input = l.input := tryRune_input 13 l
  have h1 : l1.pos ≤ l1.input.length := by rw [hi]; exact tryRune_le 13 l h
  have h2 := tryRune_le 10 l1 h1
  rw [hi] at h2
  exact h2

@[simp] theorem itemsOf_nil : itemsOf [] = [] := rfl

@[simp] theorem itemsOf_emitted (i : item) (evs : List event) :
    itemsOf (event.emitted i :: evs) = i :: itemsOf evs := rfl

@[simp] theorem itemsOf_discarded (bs : List Nat) (evs : List event) :
    itemsOf (event.discarded bs :: evs) = itemsOf evs := rfl

@[simp] theorem coveredBytes_nil : coveredBytes [] = [] := rfl

@[simp] theorem coveredBytes_cons (e : event) (evs : List event) :
    coveredBytes (e :: evs) = eventBytes e ++ coveredBytes evs := rfl

/-- Glueing a slice `input[a:b]` to the remainder `input[b:]` gives the
remainder `input[a:]`. -/
theorem drop_take_drop (xs : List Nat) (a b : Nat) (h : a ≤ b) :
    (xs.drop a).take (b - a) ++ xs.drop b = xs.drop a := by
  have hd : xs.drop b = (xs.drop a).drop (b - a) := by
    rw [List.drop_drop]
    congr 1
    omega
  rw [hd, List.take_append_drop]

/-- When the cursor sits at the end of the input, the pending span is
all of the input from `start` on. -/
theorem pending_full (l : lexer) (h : l.pos = l.input.length) :
    pending l = l.input.drop l.start := by
  simp only [pending, h]
  exact List.take_of_length_le (by simp)

/-- When `start` has caught up with the cursor, the pending span is
empty. -/
theorem pending_self (l : lexer) (h : l.start = l.pos) : pending l = [] := by
  simp [pending, h]

/-- Closed form of the Content state: from any reachable scanner state,
`lexMarkdown` emits the rest of the pending input as one markdown item
and then the end marker. -/
theorem lexMarkdown_eq (fuel : Nat) (l : lexer) (hf : l.input.length - l.pos < fuel)
    (hp : l.pos ≤ l.input.length) :
    lexMarkdown fuel l =
      some [event.emitted ⟨itemMarkdown, l.input.drop l.start⟩, event.emitted ⟨itemEOF, []⟩] := by
  induction fuel generalizing l with
  | zero => omega
  | succ fuel ih =>
    rw [lexMarkdown]
    split
    · rename_i h
      rw [next_eof_iff] at h
      have hpos : (next l).2.pos = l.pos := next_pos_eof l h
      have hpe : l.pos = l.input.length := le_antisymm hp h
      have h1 : pending (next l).2 = l.input.drop l.start := by
        rw [pending_full ((next l).2) (by rw [hpos, next_input]; exact hpe),
          next_input, next_start]
      simp [lexDone, emit, h1]
      exact pending_self _ rfl
    · rename_i h
      have h1 := next_pos_lt l h
      have h2 := next_pos_le l hp
      rw [ih ((next l).2) (by rw [next_input]; omega) (by rw [next_input]; exact h2)]
      rw [next_input, next_start]

@[simp] theorem lastTyp_nil : lastTyp [] = none := rfl

@[simp] theorem lastTyp_single (i : item) : lastTyp [i] = some i.typ := rfl

@[simp] theorem lastTyp_cons_cons (a b : item) (is : List item) :
    lastTyp (a :: b :: is) = lastTyp (b :: is) := rfl

/-- The channel contents of a finished run end with the end marker or an
error item. -/
def endsOk (evs : List event) : Prop :=
  lastTyp (itemsOf evs) = some itemEOF ∨ lastTyp (itemsOf evs) = some itemError

/-- No error item was emitted during the run. -/
def noError (evs : List event) : Prop := ∀ i ∈ itemsOf evs, i.typ ≠ itemError

theorem endsOk_error (msg : List Nat) : endsOk (errorEvents msg) := by
  right
  simp [errorEvents, endsOk]

theorem noError_error (msg : List Nat) (h : noError (errorEvents msg)) : False :=
  h ⟨itemError, msg⟩ (by simp [errorEvents]) rfl

theorem endsOk_discard (bs : List Nat) (evs : List event) (h : endsOk evs) :
    endsOk (event.discarded bs :: evs) := by
  simpa [endsOk] using h

theorem noError_discard (bs : List Nat) (evs : List event) :
    noError (event.discarded bs :: evs) ↔ noError evs := by
  simp [noError]

/-- A successful prefix check bounds the read position: at least the
prefix fits between `pos` and the end of the input. -/
theorem hasPrefix_pos_le (l : lexer) (p : List Nat) (hp : 0 < p.length)
    (h : hasPrefixBytes l p = true) : l.pos + p.length ≤ l.input.length := by
  rw [hasPrefixBytes, List.isPrefixOf_iff_prefix] at h
  have hle := h.length_le
  rw [List.length_drop] at hle
  omega

/-- The break branch of the fence search: the remaining events are the
frontmatter item, the discarded closing fence with its line break, the
markdown remainder and the end marker, and they account exactly for the
input from `start` on. -/
theorem fenceBreak_spec (kind : itemType) (fuel : Nat) (l1 : lexer)
    (hk : kind ≠ itemError ∧ kind ≠ itemEOF)
    (hs : l1.start ≤ l1.pos) (hp3 : l1.pos + 3 ≤ l1.input.length)
    (hf : l1.input.length - l1.pos < fuel) :
    ∃ evs, fenceBreak kind fuel l1 = some evs ∧ endsOk evs ∧
      (noError evs → coveredBytes evs = l1.input.drop l1.start) := by
  simp only [fenceBreak]
  set l2 : lexer := { (emit l1 kind).2 with pos := (emit l1 kind).2.pos + 3 } with hl2
  set l3 : lexer := (consumeCRLF l2).2 with hl3
  have h2i : l2.input = l1.input := rfl
  have h2s : l2.start = l1.pos := rfl
  have h2p : l2.pos = l1.pos + 3 := rfl
  have h3i : l3.input = l1.input := by rw [hl3, consumeCRLF_input, h2i]
  have h3s : l3.start = l1.pos := by rw [hl3, consumeCRLF_start, h2s]
  have h3ge : l1.pos + 3 ≤ l3.pos := by
    rw [hl3]
    have := consumeCRLF_pos_ge l2
    omega
  have h3le : l3.pos ≤ l1.input.length := by
    rw [hl3]
    have := consumeCRLF_pos_le l2 (by rw [h2p, h2i]; exact hp3)
    rw [h2i] at this
    exact this
  have hmd := lexMarkdown_eq fuel (ignore l3)
    (by show l3.input.length - l3.pos < fuel; rw [h3i]; omega)
    (by show l3.pos ≤ l3.input.length; rw [h3i]; exact h3le)
  have hval : (ignore l3).input.drop (ignore l3).start = l1.input.drop l3.pos := by
    show l3.input.drop l3.pos = l1.input.drop l3.pos
    rw [h3i]
  rw [hval] at hmd
  rw [hmd, Option.map_some']
  refine ⟨_, rfl, ?_, fun hnv => ?_⟩
  · simp [endsOk, emit]
  · have hkb : eventBytes (event.emitted (emit l1 kind).1) = pending l1 := by
      simp [eventBytes, emit, hk.1, hk.2]
    have hb1 : eventBytes (event.discarded (pending l3)) = pending l3 := rfl
    have hb2 : eventBytes (event.emitted ⟨itemMarkdown, l1.input.drop l3.pos⟩) =
        l1.input.drop l3.pos := by simp [eventBytes]
    have hb3 : eventBytes (event.emitted ⟨itemEOF, ([] : List Nat)⟩) = [] := by
      simp [eventBytes]
    simp only [coveredBytes_cons, coveredBytes_nil, hkb, hb1, hb2, hb3, List.append_nil]
    rw [show pending l3 = (l1.input.drop l1.pos).take (l3.pos - l1.pos) from by
      rw [pending, h3i, h3s]]
    rw [show pending l1 = (l1.input.drop l1.start).take (l1.pos - l1.start) from rfl]
    rw [drop_take_drop l1.input l1.pos l3.pos (by omega)]
    exact drop_take_drop l1.input l1.start l1.pos hs

/-- The closing-fence search loop terminates with a well-formed tail of
events that account exactly for the input from `start` on. -/
theorem fenceLoop_spec (delim : List Nat) (kind : itemType) (msg : List Nat)
    (hk : kind ≠ itemError ∧ kind ≠ itemEOF) (hd : delim.length = 3) :
    ∀ (fuel : Nat) (l : lexer), l.start ≤ l.pos → l.pos ≤ l.input.length →
    l.input.length - l.pos < fuel →
    ∃ evs, fenceLoop delim kind msg fuel l = some evs ∧ endsOk evs ∧
      (noError evs → coveredBytes evs = l.input.drop l.start) := by
  intro fuel
  induction fuel with
  | zero => intro l _ _ h; omega
  | succ fuel ih =>
    intro l hs hp hf
    rw [fenceLoop]
    split
    · exact ⟨_, rfl, endsOk_error msg, fun h => (noError_error msg h).elim⟩
    · rename_i hne
      have h1 := next_pos_lt l hne
      have h2 := next_pos_le l hp
      split
      · rename_i hbr
        rw [Bool.and_eq_true] at hbr
        have hpre := hasPrefix_pos_le ((next l).2) delim (by omega) hbr.2
        rw [hd, next_input] at hpre
        obtain ⟨evs, he, ho, hc⟩ := fenceBreak_spec kind fuel ((next l).2) hk
          (by rw [next_start]; omega) (by rw [next_input]; omega) (by rw [next_input]; omega)
        exact ⟨evs, he, ho, fun hnv => by rw [hc hnv, next_input, next_start]⟩
      · obtain ⟨evs, he, ho, hc⟩ := ih ((next l).2)
          (by rw [next_start]; omega) (by rw [next_input]; exact h2) (by rw [next_input]; omega)
        exact ⟨evs, he, ho, fun hnv => by rw [hc hnv, next_input, next_start]⟩

/-- The TOML/YAML frontmatter state terminates with a well-formed tail
of events that account exactly for the input from `start` on. -/
theorem lexFrontmatterFence_spec (c : Int) (delim : List Nat) (kind : itemType)
    (imsg emsg : List Nat) (hk : kind ≠ itemError ∧ kind ≠ itemEOF) (hd : delim.length = 3)
    (fuel : Nat) (l : lexer) (hs : l.start ≤ l.pos) (hp : l.pos ≤ l.input.length)
    (hf : l.input.length - l.pos < fuel) :
    ∃ evs, lexFrontmatterFence c delim kind imsg emsg fuel l = some evs ∧ endsOk evs ∧
      (noError evs → coveredBytes evs = l.input.drop l.start) := by
  simp only [lexFrontmatterFence]
  split
  · exact ⟨_, rfl, endsOk_error imsg, fun h => (noError_error imsg h).elim⟩
  · split
    · exact ⟨_, rfl, endsOk_error imsg, fun h => (noError_error imsg h).elim⟩
    · split
      · exact ⟨_, rfl, endsOk_error imsg, fun h => (noError_error imsg h).elim⟩
      · set n3 : lexer := (next (next (next l).2).2).2 with hn3
        set l3 : lexer := (consumeCRLF n3).2 with hl3
        have hni : n3.input = l.input := by rw [hn3, next_input, next_input, next_input]
        have hns : n3.start = l.start := by rw [hn3, next_start, next_start, next_start]
        have hnge : l.pos ≤ n3.pos := by
          rw [hn3]
          calc l.pos ≤ (next l).2.pos := next_pos_ge l
            _ ≤ (next (next l).2).2.pos := next_pos_ge _
            _ ≤ (next (next (next l).2).2).2.pos := next_pos_ge _
        have hnle : n3.pos ≤ l.input.length := by
          have a1 := next_pos_le l hp
          have a2 := next_pos_le ((next l).2) (by rw [next_input]; exact a1)
          rw [next_input] at a2
          have a3 := next_pos_le ((next (next l).2).2) (by rw [next_input, next_input]; exact a2)
          rw [next_input, next_input] at a3
          rw [hn3]
          exact a3
        have h3i : l3.input = l.input := by rw [hl3, consumeCRLF_input, hni]
        have h3s : l3.start = l.start := by rw [hl3, consumeCRLF_start, hns]
        have h3ge : l.pos ≤ l3.pos := by
          rw [hl3]
          have := consumeCRLF_pos_ge n3
          omega
        have h3le : l3.pos ≤ l.input.length := by
          rw [hl3]
          have := consumeCRLF_pos_le n3 (by rw [hni]; exact hnle)
          rw [hni] at this
          exact this
        clear_value n3 l3
        obtain ⟨evs, he, ho, hc⟩ := fenceLoop_spec delim kind emsg hk hd fuel (ignore l3)
          (le_refl _)
          (by show l3.pos ≤ l3.input.length; rw [h3i]; exact h3le)
          (by show l3.input.length - l3.pos < fuel; rw [h3i]; omega)
        rw [he, Option.map_some']
        refine ⟨_, rfl, endsOk_discard _ _ ho, fun hnv => ?_⟩
        have hc' : coveredBytes evs = l.input.drop l3.pos := by
          rw [hc ((noError_discard _ _).mp hnv)]
          show l3.input.drop l3.pos = l.input.drop l3.pos
          rw [h3i]
        rw [coveredBytes_cons, show eventBytes (event.discarded (pending l3)) = pending l3 from
          rfl, hc']
        rw [show pending l3 = (l.input.drop l.start).take (l3.pos - l.start) from by
          rw [pending, h3i, h3s]]
        exact drop_take_drop l.input l.start l3.pos (by omega)

/-- The finish branch of the JSON frontmatter state: the remaining
events are the JSON frontmatter item (including any consumed trailing
line break), the markdown remainder and the end marker. -/
theorem jsonFinish_spec (fuel : Nat) (l : lexer) (hs : l.start ≤ l.pos)
    (hp : l.pos ≤ l.input.length) (hf : l.input.length - l.pos < fuel) :
    ∃ evs, jsonFinish fuel l = some evs ∧ endsOk evs ∧
      (noError evs → coveredBytes evs = l.input.drop l.start) := by
  simp only [jsonFinish]
  set l1 : lexer := (consumeCRLF l).2 with hl1
  have h1i : l1.input = l.input := by rw [hl1, consumeCRLF_input]
  have h1s : l1.start = l.start := by rw [hl1, consumeCRLF_start]
  have h1ge : l.pos ≤ l1.pos := by rw [hl1]; exact consumeCRLF_pos_ge l
  have h1le : l1.pos ≤ l.input.length := by rw [hl1]; exact consumeCRLF_pos_le l hp
  have hmd := lexMarkdown_eq fuel (emit l1 itemFrontmatterJSON).2
    (by show l1.input.length - l1.pos < fuel; rw [h1i]; omega)
    (by show l1.pos ≤ l1.input.length; rw [h1i]; exact h1le)
  have hval : (emit l1 itemFrontmatterJSON).2.input.drop (emit l1 itemFrontmatterJSON).2.start =
      l.input.drop l1.pos := by
    show l1.input.drop l1.pos = l.input.drop l1.pos
    rw [h1i]
  rw [hval] at hmd
  rw [hmd, Option.map_some']
  refine ⟨_, rfl, ?_, fun hnv => ?_⟩
  · simp [endsOk, emit]
  · have hkb : eventBytes (event.emitted (emit l1 itemFrontmatterJSON).1) = pending l1 := by
      simp [eventBytes, emit]
    have hb2 : eventBytes (event.emitted ⟨itemMarkdown, l.input.drop l1.pos⟩) =
        l.input.drop l1.pos := by simp [eventBytes]
    have hb3 : eventBytes (event.emitted ⟨itemEOF, ([] : List Nat)⟩) = [] := by
      simp [eventBytes]
    simp only [coveredBytes_cons, coveredBytes_nil, hkb, hb2, hb3, List.append_nil]
    rw [show pending l1 = (l.input.drop l.start).take (l1.pos - l.start) from by
      rw [pending, h1i, h1s]]
    exact drop_take_drop l.input l.start l1.pos (by omega)

theorem jsonStep_input (l : lexer) : (jsonStep l).input = l.input := by
  rw [jsonStep]; split <;> simp

theorem jsonStep_start (l : lexer) : (jsonStep l).start = l.start := by
  rw [jsonStep]; split <;> simp

theorem jsonStep_pos_le (l : lexer) (h : l.pos ≤ l.input.length) :
    (jsonStep l).pos ≤ l.input.length := by
  rw [jsonStep]; split
  · have a1 := next_pos_le l h
    have a2 := next_pos_le ((next l).2) (by rw [next_input]; exact a1)
    rw [next_input] at a2
    exact a2
  · exact next_pos_le l h

theorem jsonStep_pos_lt (l : lexer) (h : ¬(next l).1 = eof) : l.pos < (jsonStep l).pos := by
  rw [jsonStep]; split
  · have a1 := next_pos_lt l h
    have a2 := next_pos_ge ((next l).2)
    omega
  · exact next_pos_lt l h

/-- The JSON frontmatter loop terminates with a well-formed tail of
events that account exactly for the input from `start` on. -/
theorem jsonLoop_spec : ∀ (fuel : Nat) (l : lexer) (q : Bool) (lv : Int),
    l.start ≤ l.pos → l.pos ≤ l.input.length → l.input.length - l.pos < fuel →
    ∃ evs, jsonLoop fuel l q lv = some evs ∧ endsOk evs ∧
      (noError evs → coveredBytes evs = l.input.drop l.start) := by
  intro fuel
  induction fuel with
  | zero => intro l q lv _ _ h; omega
  | succ fuel ih =>
    intro l q lv hs hp hf
    rw [jsonLoop]
    split
    · exact ⟨_, rfl, endsOk_error _, fun h => (noError_error _ h).elim⟩
    · rename_i hne
      have h1 := jsonStep_pos_lt l hne
      have h2 := jsonStep_pos_le l hp
      split
      · obtain ⟨evs, he, ho, hc⟩ := jsonFinish_spec fuel (jsonStep l)
          (by rw [jsonStep_start]; omega) (by rw [jsonStep_input]; exact h2)
          (by rw [jsonStep_input]; omega)
        exact ⟨evs, he, ho, fun hnv => by rw [hc hnv, jsonStep_input, jsonStep_start]⟩
      · obtain ⟨evs, he, ho, hc⟩ := ih (jsonStep l) (jsonQuote q l) (jsonLevel lv q l)
          (by rw [jsonStep_start]; omega) (by rw [jsonStep_input]; exact h2)
          (by rw [jsonStep_input]; omega)
        exact ⟨evs, he, ho, fun hnv => by rw [hc hnv, jsonStep_input, jsonStep_start]⟩

/-- The dispatch state terminates with a well-formed event list that
accounts exactly for the input from `start` on. -/
theorem lexStart_spec (fuel : Nat) (l : lexer) (hs : l.start ≤ l.pos)
    (hp : l.pos ≤ l.input.length) (hf : l.input.length - l.pos < fuel) :
    ∃ evs, lexStart fuel l = some evs ∧ endsOk evs ∧
      (noError evs → coveredBytes evs = l.input.drop l.start) := by
  rw [lexStart]
  have hsp : (peek l).2.start ≤ (peek l).2.pos := by rw [peek_start, peek_pos]; exact hs
  have hpp : (peek l).2.pos ≤ (peek l).2.input.length := by rw [peek_pos, peek_input]; exact hp
  have hfp : (peek l).2.input.length - (peek l).2.pos < fuel := by
    rw [peek_pos, peek_input]; exact hf
  split
  · rw [lexFrontmatterTOML]
    obtain ⟨evs, he, ho, hc⟩ := lexFrontmatterFence_spec 43 tomlDelim itemFrontmatterTOML
      (msgBytes ("invalid TOML delimiter"))
      (msgBytes ("EOF looking for end TOML front matter delimiter"))
      (by refine ⟨?_, ?_⟩ <;> intro h <;> cases h) rfl fuel ((peek l).2) hsp hpp hfp
    exact ⟨evs, he, ho, fun h => by rw [hc h, peek_input, peek_start]⟩
  · split
    · rw [lexFrontmatterYAML]
      obtain ⟨evs, he, ho, hc⟩ := lexFrontmatterFence_spec 45 yamlDelim itemFrontmatterYAML
        (msgBytes ("invalid YAML delimiter"))
        (msgBytes ("EOF looking for end YAML front matter delimiter"))
        (by refine ⟨?_, ?_⟩ <;> intro h <;> cases h) rfl fuel ((peek l).2) hsp hpp hfp
      exact ⟨evs, he, ho, fun h => by rw [hc h, peek_input, peek_start]⟩
    · split
      · rw [lexFrontmatterJSON]
        obtain ⟨evs, he, ho, hc⟩ := jsonLoop_spec fuel ((peek l).2) false 0 hsp hpp hfp
        exact ⟨evs, he, ho, fun h => by rw [hc h, peek_input, peek_start]⟩
      · rw [lexMarkdown_eq fuel ((peek l).2) hfp hpp]
        refine ⟨_, rfl, ?_, fun _ => ?_⟩
        · simp [endsOk]
        · have hb2 : eventBytes (event.emitted
              ⟨itemMarkdown, (peek l).2.input.drop (peek l).2.start⟩) =
              (peek l).2.input.drop (peek l).2.start := by simp [eventBytes]
          have hb3 : eventBytes (event.emitted ⟨itemEOF, ([] : List Nat)⟩) = [] := by
            simp [eventBytes]
          simp only [coveredBytes_cons, coveredBytes_nil, hb2, hb3, List.append_nil]
          rw [peek_input, peek_start]

@[simp] theorem peek_fst (l : lexer) : (peek l).1 = (next l).1 := rfl

/-- Every run returns (the fuel suffices), ends with the end marker or
an error item, and, when no error item was emitted, its events account
for the whole input. -/
theorem run_spec (bs : List Nat) :
    ∃ evs, run bs = some evs ∧ endsOk evs ∧ (noError evs → coveredBytes evs = bs) := by
  obtain ⟨evs, he, ho, hc⟩ := lexStart_spec (bs.length + 1) ⟨bs, 0, 0, 0⟩ (le_refl 0)
    (Nat.zero_le _) (by show bs.length - 0 < bs.length + 1; omega)
  refine ⟨evs, by rw [run]; exact he, ho, fun h => ?_⟩
  rw [hc h]
  simp

end Lemmas

section Claims

/-- The byte sequence of the specification example for the JSON
frontmatter: a JSON object binding key a to a nested object binding key
b to 1, followed by a line feed and the four letters BODY.  Bytes 0 to
14 are the balanced-brace span, byte 15 is the line feed. -/
def jsonInput : List Nat :=
  [123, 34, 97, 34, 58, 32, 123, 34, 98, 34, 58, 32, 49, 125, 125, 10, 66, 79, 68, 89]

/-- C1 (counterexample): on the well-formed TOML document, the scanner
does not emit a TOML item with value exactly A — the emitted value also
contains the line break that precedes the closing fence. -/
theorem c1_counterexample :
    (run (msgBytes ("+++\nA\n+++\nBODY"))).map itemsOf ≠
      some [⟨itemFrontmatterTOML, msgBytes ("A")⟩, ⟨itemMarkdown, msgBytes ("BODY")⟩,
        ⟨itemEOF, []⟩] := by decide

/-- C1 (amended): for the TOML document consisting of the opening
fence, line feed, A, line feed, closing fence, line feed, BODY, the
scanner emits a TOML-frontmatter item whose value is A followed by the
line feed that precedes the closing fence (the fences and the line
breaks following them are stripped), then a Content item BODY, then the
end marker, and nothing else. -/
theorem c1_theorem :
    (run (msgBytes ("+++\nA\n+++\nBODY"))).map itemsOf =
      some [⟨itemFrontmatterTOML, msgBytes ("A\n")⟩, ⟨itemMarkdown, msgBytes ("BODY")⟩,
        ⟨itemEOF, []⟩] := by decide

/-- C2 (counterexample): on the JSON document, the emitted
JSON-frontmatter item is not the balanced-brace span alone — the
trailing line break is part of the emitted value, because the source
consumes the line break before emitting and never discards it. -/
theorem c2_counterexample :
    (run jsonInput).map itemsOf ≠
      some [⟨itemFrontmatterJSON, jsonInput.take 15⟩, ⟨itemMarkdown, msgBytes ("BODY")⟩,
        ⟨itemEOF, []⟩] := by decide

/-- C2 (amended): for the JSON object followed by a line feed and BODY,
the scanner emits exactly one JSON-frontmatter item whose value is the
balanced-brace span with the trailing line break included (braces
included), then a Content item BODY, then the end marker. -/
theorem c2_theorem :
    (run jsonInput).map itemsOf =
      some [⟨itemFrontmatterJSON, jsonInput.take 16⟩, ⟨itemMarkdown, msgBytes ("BODY")⟩,
        ⟨itemEOF, []⟩] := by decide

/-- C3 (counterexample): on the unterminated TOML document the
round-trip fails — the scanner discards the opening fence, then the
error item replaces the scanned span, so the remaining byte A is
accounted for nowhere. -/
theorem c3_counterexample :
    coveredBytes ((run (msgBytes ("+++\nA"))).getD []) ≠ msgBytes ("+++\nA") := by decide

/-- C3 (amended): for every input on which the scanner emits no error
item, concatenating in emission order the values of all emitted items
that are neither Error nor EOF together with the spans discarded by
ignore reconstructs the original input exactly. -/
theorem c3_theorem (bs : List Nat) (evs : List event) (h : run bs = some evs)
    (hne : ∀ i ∈ itemsOf evs, i.typ ≠ itemError) : coveredBytes evs = bs := by
  obtain ⟨evs', he, _, hc⟩ := run_spec bs
  rw [h] at he
  obtain rfl : evs = evs' := Option.some.inj he
  exact hc hne

/-- C3 (witness): the amended round-trip at the one-byte input 65. -/
theorem c3_witness :
    coveredBytes [event.emitted ⟨itemMarkdown, [65]⟩, event.emitted ⟨itemEOF, []⟩] = [65] :=
  c3_theorem [65] _ (by decide) (by decide)

/-- C4: for every input (the empty one included) whose first byte is
not a plus sign, a hyphen-minus or an opening brace — and hence whose
first character is none of those, a multi-byte character never decoding
to an ASCII value — the scanner emits exactly one Content item covering
the whole input, then the end marker, and no frontmatter or error
item. -/
theorem c4_theorem (bs : List Nat)
    (h : bs.head? ≠ some 43 ∧ bs.head? ≠ some 45 ∧ bs.head? ≠ some 123) :
    (run bs).map itemsOf = some [⟨itemMarkdown, bs⟩, ⟨itemEOF, []⟩] := by
  match bs with
  | [] => decide
  | b :: t =>
    have hb43 : b ≠ 43 := fun hc => h.1 (by simp [hc])
    have hb45 : b ≠ 45 := fun hc => h.2.1 (by simp [hc])
    have hb123 : b ≠ 123 := fun hc => h.2.2 (by simp [hc])
    have hr : (next (⟨b :: t, 0, 0, 0⟩ : lexer)).1 = ((decodeRune (b :: t)).1 : Int) := by
      rw [next, if_neg (by simp)]
      simp
    have hne1 : ¬ (peek (⟨b :: t, 0, 0, 0⟩ : lexer)).1 = 43 := by
      rw [peek_fst, hr]
      intro hc
      exact decodeRune_fst_ne b t 43 (by norm_num) hb43 (by exact_mod_cast hc)
    have hne2 : ¬ (peek (⟨b :: t, 0, 0, 0⟩ : lexer)).1 = 45 := by
      rw [peek_fst, hr]
      intro hc
      exact decodeRune_fst_ne b t 45 (by norm_num) hb45 (by exact_mod_cast hc)
    have hne3 : ¬ (peek (⟨b :: t, 0, 0, 0⟩ : lexer)).1 = 123 := by
      rw [peek_fst, hr]
      intro hc
      exact decodeRune_fst_ne b t 123 (by norm_num) hb123 (by exact_mod_cast hc)
    rw [run, lexStart, if_neg hne1, if_neg hne2, if_neg hne3]
    rw [lexMarkdown_eq ((b :: t).length + 1) ((peek (⟨b :: t, 0, 0, 0⟩ : lexer)).2)
      (by rw [peek_input, peek_pos]; show (b :: t).length - 0 < (b :: t).length + 1; omega)
      (by rw [peek_input, peek_pos]; exact Nat.zero_le _)]
    simp

/-- C4 (witness): the Content-only run at the five-byte input hello. -/
theorem c4_witness :
    (run (msgBytes ("hello"))).map itemsOf =
      some [⟨itemMarkdown, msgBytes ("hello")⟩, ⟨itemEOF, []⟩] :=
  c4_theorem (msgBytes ("hello")) (by decide)

/-- C5: on the unterminated TOML document — opening fence, line feed, A
— the scanner emits exactly one item, the error item with the exact
message EOF looking for end TOML front matter delimiter, and nothing
follows it (in particular no end marker). -/
theorem c5_theorem :
    (run (msgBytes ("+++\nA"))).map itemsOf =
      some [⟨itemError, msgBytes ("EOF looking for end TOML front matter delimiter")⟩] := by
  decide

/-- C7: on every input the scanner run terminates, producing a finite
event list whose last item is the end marker or an error item. -/
theorem c7_theorem (bs : List Nat) :
    ∃ evs, run bs = some evs ∧
      (lastTyp (itemsOf evs) = some itemEOF ∨ lastTyp (itemsOf evs) = some itemError) := by
  obtain ⟨evs, he, ho, _⟩ := run_spec bs
  exact ⟨evs, he, ho⟩

/-- C10: on a document whose frontmatter body is empty — the closing
fence immediately after the line break that follows the opening fence —
the scanner does not emit an empty frontmatter item but scans to the end
of the input and emits the EOF-looking error, in the YAML case (bytes of
three hyphens, line feed, three hyphens, line feed, BODY) and in the
TOML case alike. -/
theorem c10_theorem :
    (run [45, 45, 45, 10, 45, 45, 45, 10, 66, 79, 68, 89]).map itemsOf =
      some [⟨itemError, msgBytes ("EOF looking for end YAML front matter delimiter")⟩] ∧
    (run [43, 43, 43, 10, 43, 43, 43, 10, 66, 79, 68, 89]).map itemsOf =
      some [⟨itemError, msgBytes ("EOF looking for end TOML front matter delimiter")⟩] := by
  constructor <;> decide

/-- The invariant facts for the primitive operations at a state, as the
state machine uses them: each operation preserves the state invariant
(backup appears immediately after a `next`; the three-byte advance after
a successful closing-fence prefix check, for the TOML fence and the YAML
fence alike), and immediately after emit, start equals pos. -/
def primInv (l : lexer) (t : itemType) : Prop :=
  Inv (next l).2 ∧
  Inv (backup (next l).2) ∧
  Inv (peek l).2 ∧
  Inv (ignore l) ∧
  (Inv (emit l t).2 ∧ (emit l t).2.start = (emit l t).2.pos) ∧
  ((hasPrefixBytes l tomlDelim = true ∨ hasPrefixBytes l yamlDelim = true) →
    Inv { l with pos := l.pos + 3 }) ∧
  Inv (consumeCRLF l).2

/-- C8: from any state satisfying the data-model invariant
start ≤ pos ≤ length input (the lower bound 0 ≤ start being part of the
natural-number positions), every primitive operation — next, backup as
used by the machine, peek, ignore, emit, the three-byte advance past a
closing fence (the TOML fence and the YAML fence alike), consumeCRLF —
leads to a state satisfying it again, and immediately after emit, start
equals pos; since the run starts in a state satisfying the invariant and
states only evolve through these operations, the invariant holds
throughout every run. -/
theorem c8_theorem (l : lexer) (t : itemType) (h : Inv l) : primInv l t := by
  obtain ⟨h1, h2⟩ := h
  refine ⟨⟨?_, ?_⟩, ⟨?_, ?_⟩, ⟨?_, ?_⟩, ⟨?_, ?_⟩, ⟨⟨?_, ?_⟩, ?_⟩, fun hp => ⟨?_, ?_⟩, ⟨?_, ?_⟩⟩
  · rw [next_start]
    exact le_trans h1 (next_pos_ge l)
  · rw [next_input]
    exact next_pos_le l h2
  · rw [backup_start, next_start, backup_next_pos]
    exact h1
  · rw [backup_next_pos, backup_input, next_input]
    exact h2
  · rw [peek_start, peek_pos]
    exact h1
  · rw [peek_pos, peek_input]
    exact h2
  · exact le_refl _
  · exact h2
  · exact le_refl _
  · exact h2
  · rfl
  · exact le_trans h1 (Nat.le_add_right _ 3)
  · rcases hp with hp | hp
    · have := hasPrefix_pos_le l tomlDelim (by decide) hp
      simpa [tomlDelim] using this
    · have := hasPrefix_pos_le l yamlDelim (by decide) hp
      simpa [yamlDelim] using this
  · rw [consumeCRLF_start]
    exact le_trans h1 (consumeCRLF_pos_ge l)
  · rw [consumeCRLF_input]
    exact consumeCRLF_pos_le l h2

/-- C8 (witness): the invariant preservation at a concrete state. -/
theorem c8_witness :
    Inv ⟨[43, 43, 43], 0, 0, 0⟩ ∧ primInv ⟨[43, 43, 43], 0, 0, 0⟩ itemMarkdown :=
  ⟨by decide, c8_theorem _ _ (by decide)⟩

/-- At end of input `next` returns the sentinel and records width 0. -/
theorem next_eof_eq (l : lexer) (h : l.input.length ≤ l.pos) :
    next l = (eof, { l with width := 0 }) := by
  rw [next, if_pos h]

/-- On an ASCII byte at the cursor, `next` returns it and advances by
one. -/
theorem next_cons (l : lexer) (b : Nat) (t : List Nat) (hb : b < 0x80)
    (h : l.input.drop l.pos = b :: t) :
    next l = ((b : Int), { l with pos := l.pos + 1, width := 1 }) := by
  have hlt : l.pos < l.input.length := by
    have := congrArg List.length h
    rw [List.length_drop] at this
    simp at this
    omega
  rw [next, if_neg (by omega), h, decodeRune_ascii b t hb]

theorem drop_succ (xs : List Nat) (p b : Nat) (t : List Nat) (h : xs.drop p = b :: t) :
    xs.drop (p + 1) = t := by
  rw [← List.drop_drop, h]
  rfl

/-- Going back by exactly the width of the rune just read restores the
cursor (this is `backup_next_pos` stated on the subtraction itself). -/
theorem next_sub_width (l : lexer) : (next l).2.pos - (next l).2.width = l.pos :=
  backup_next_pos l

/-- When no byte at the cursor equals the given ASCII value, `next`
does not return it (a multi-byte rune is at least 0x80, the replacement
rune too, and the sentinel is negative). -/
theorem next_fst_ne (l : lexer) (c : Nat) (hc : c < 0x80)
    (hne : ∀ b t, l.input.drop l.pos = b :: t → b ≠ c) : (next l).1 ≠ (c : Int) := by
  rw [next]
  split
  · intro hx
    have hx' : (-1 : Int) = (c : Int) := hx
    omega
  · rename_i hlen
    rcases hd : l.input.drop l.pos with _ | ⟨b, t⟩
    · exfalso
      have := congrArg List.length hd
      rw [List.length_drop] at this
      simp at this
      omega
    · intro hx
      have hx' : ((decodeRune (b :: t)).1 : Int) = (c : Int) := hx
      exact decodeRune_fst_ne b t c hc (hne b t hd) (by exact_mod_cast hx')

/-- C9 (counterexample): on the two bytes line feed then carriage
return, consumeCRLF does not consume both characters of the line-break
sequence — it consumes only the line feed (final position 1, not 2),
because the source checks for a carriage return first and a line feed
second, each at most once. -/
theorem c9_counterexample :
    ¬ ((consumeCRLF ⟨[10, 13], 0, 0, 0⟩).1 = true ∧
       (consumeCRLF ⟨[10, 13], 0, 0, 0⟩).2.pos = 2) := by decide

/-- C9 (amended): consumeCRLF consumes an optional carriage return and
then an optional line feed, in that order: it consumes both characters
of a carriage-return line-feed sequence, one character of a lone
carriage return or of a line feed — in particular, of a line feed
followed by a carriage return it consumes only the line feed — and it
returns true exactly when it consumed anything; when the next character
is not a line-break character (or the input is exhausted) it consumes
nothing and returns false. -/
theorem c9_theorem (l : lexer) :
    (∀ t, l.input.drop l.pos = 13 :: 10 :: t →
      (consumeCRLF l).1 = true ∧ (consumeCRLF l).2.pos = l.pos + 2) ∧
    (∀ t, l.input.drop l.pos = 13 :: t → t.head? ≠ some 10 →
      (consumeCRLF l).1 = true ∧ (consumeCRLF l).2.pos = l.pos + 1) ∧
    (∀ t, l.input.drop l.pos = 10 :: t →
      (consumeCRLF l).1 = true ∧ (consumeCRLF l).2.pos = l.pos + 1) ∧
    ((∀ b, (l.input.drop l.pos).head? = some b → b ≠ 13 ∧ b ≠ 10) →
      (consumeCRLF l).1 = false ∧ (consumeCRLF l).2.pos = l.pos) := by
  refine ⟨fun t h => ?_, fun t h ht => ?_, fun t h => ?_, fun hno => ?_⟩
  · have hn1 := next_cons l 13 (10 :: t) (by norm_num) h
    have hd1 : l.input.drop (l.pos + 1) = 10 :: t := drop_succ _ _ _ _ h
    have hn2 := next_cons ({ l with pos := l.pos + 1, width := 1 }) 10 t (by norm_num)
      (by show l.input.drop (l.pos + 1) = 10 :: t; exact hd1)
    simp [consumeCRLF, hn1, hn2]
  · have hn1 := next_cons l 13 t (by norm_num) h
    have hd1 : l.input.drop (l.pos + 1) = t := drop_succ _ _ _ _ h
    have hf2 : (next ({ l with pos := l.pos + 1, width := 1 })).1 ≠ (10 : Int) := by
      apply next_fst_ne _ 10 (by norm_num)
      intro b' t' hd'
      rw [show ({ l with pos := l.pos + 1, width := 1 } : lexer).input.drop
        ({ l with pos := l.pos + 1, width := 1 } : lexer).pos =
        l.input.drop (l.pos + 1) from rfl, hd1] at hd'
      intro hc
      exact ht (by rw [hd', hc]; rfl)
    have hb2 : ((next ({ l with pos := l.pos + 1, width := 1 })).1 == 10) = false :=
      beq_eq_false_iff_ne.mpr hf2
    simp [consumeCRLF, hn1, hb2, next_sub_width]
  · have hn1 := next_cons l 10 t (by norm_num) h
    have hb1 : ((10 : Int) == 13) = false := by decide
    have hl1 : backup ({ l with pos := l.pos + 1, width := 1 }) =
        { l with pos := l.pos, width := 1 } := by
      simp [backup]
    have hn2 := next_cons ({ l with pos := l.pos, width := 1 }) 10 t (by norm_num)
      (by show l.input.drop l.pos = 10 :: t; exact h)
    simp [consumeCRLF, hn1, hb1, hl1, hn2]
  · have hf1 : (next l).1 ≠ (13 : Int) :=
      next_fst_ne l 13 (by norm_num) (fun b t hd => (hno b (by rw [hd]; rfl)).1)
    have hb1 : ((next l).1 == 13) = false := beq_eq_false_iff_ne.mpr hf1
    have hf2 : (next (backup (next l).2)).1 ≠ (10 : Int) := by
      apply next_fst_ne _ 10 (by norm_num)
      intro b t hd
      rw [backup_input, next_input, backup_next_pos] at hd
      exact fun hc => (hno b (by rw [hd]; rfl)).2 hc
    have hb2 : ((next (backup (next l).2)).1 == 10) = false := beq_eq_false_iff_ne.mpr hf2
    simp [consumeCRLF, hb1, hb2, next_sub_width]

/-- C9 (witness): the carriage-return line-feed case at a concrete
state. -/
theorem c9_witness :
    (consumeCRLF ⟨[13, 10], 0, 0, 0⟩).1 = true ∧
      (consumeCRLF ⟨[13, 10], 0, 0, 0⟩).2.pos = 0 + 2 :=
  (c9_theorem ⟨[13, 10], 0, 0, 0⟩).1 [] (by decide)

/-- Away from the end of the input, `next` advances by the decoded
width. -/
theorem next_pos_eq (l : lexer) (h : l.pos < l.input.length) :
    (next l).2.pos = l.pos + (decodeRune (l.input.drop l.pos)).2 := by
  rw [next, if_neg (by omega)]

/-- The number of bytes one iteration of the JSON scan consumes,
following the claim's wording: a backslash consumes the immediately
following character in addition to itself; every other character is
consumed alone. -/
def braceWidth (bs : List Nat) : Nat :=
  if (decodeRune bs).1 = 92 then
    (decodeRune bs).2 + (decodeRune (bs.drop (decodeRune bs).2)).2
  else (decodeRune bs).2

/-- Reference scan for the JSON frontmatter block, following the claim's
wording: characters are read one at a time; an unquoted opening brace
(123) increments and an unquoted closing brace (125) decrements the
nesting counter, and nothing else changes it — in particular braces
inside quoted strings do not; a double quote (34) toggles the in-quote
flag; a backslash (92) consumes the following character unconditionally,
so an escaped quote cannot toggle the flag.  The result is the number of
bytes consumed when the counter first returns to zero after a step
(`some (some n)`), `some none` when the input ends first, and `none`
when the fuel runs out. -/
def braceSpan : Nat → List Nat → Bool → Int → Option (Option Nat)
  | 0, _, _, _ => none
  | fuel + 1, bs, inQuote, level =>
    if bs.length = 0 then some none
    else if (if (decodeRune bs).1 = 123 ∧ inQuote = false then level + 1
             else if (decodeRune bs).1 = 125 ∧ inQuote = false then level - 1
             else level) = 0 then
      some (some (braceWidth bs))
    else
      (braceSpan fuel (bs.drop (braceWidth bs))
          (if (decodeRune bs).1 = 34 then !inQuote else inQuote)
          (if (decodeRune bs).1 = 123 ∧ inQuote = false then level + 1
           else if (decodeRune bs).1 = 125 ∧ inQuote = false then level - 1
           else level)).map (Option.map (fun n => braceWidth bs + n))

/-- C6: the JSON frontmatter loop is governed exactly by the
brace-nesting counter of `braceSpan`, the claim's counting rule: when
the counter never returns to zero before the end of the input, the loop
emits the unexpected-EOF error; when the counter first returns to zero
after `n` consumed bytes, the loop leaves the scan (and emits the block)
exactly at position `pos + n`.  In particular a backslash consumes the
following character unconditionally, an escaped quote does not toggle
the in-quote flag, and braces inside quoted strings do not change the
nesting level, since `braceSpan` treats them so. -/
theorem c6_theorem : ∀ (fuel : Nat) (l : lexer) (q : Bool) (lv : Int),
    l.pos ≤ l.input.length →
    (braceSpan fuel (l.input.drop l.pos) q lv = some none →
      jsonLoop fuel l q lv =
        some (errorEvents (msgBytes ("unexpected EOF parsing JSON front matter")))) ∧
    (∀ n, braceSpan fuel (l.input.drop l.pos) q lv = some (some n) →
      ∃ w f, jsonLoop fuel l q lv = jsonFinish f ⟨l.input, l.start, l.pos + n, w⟩) := by
  intro fuel
  induction fuel with
  | zero =>
    intro l q lv hp
    constructor
    · intro hb
      simp [braceSpan] at hb
    · intro n hb
      simp [braceSpan] at hb
  | succ fuel ih =>
    intro l q lv hp
    by_cases hempty : (l.input.drop l.pos).length = 0
    · have hlen : l.input.length ≤ l.pos := by
        rw [List.length_drop] at hempty
        omega
      have heof : (next l).1 = eof := (next_eof_iff l).mpr hlen
      constructor
      · intro hb
        rw [jsonLoop, if_pos heof]
      · intro n hb
        rw [braceSpan, if_pos hempty] at hb
        simp at hb
    · have hlen : l.pos < l.input.length := by
        rw [List.length_drop] at hempty
        omega
      have hne : ¬ (next l).1 = eof := by
        rw [next_eof_iff]
        omega
      have hr : (next l).1 = ((decodeRune (l.input.drop l.pos)).1 : Int) := by
        rw [next, if_neg (by omega)]
      have c123 : ((next l).1 = (123 : Int)) ↔ (decodeRune (l.input.drop l.pos)).1 = 123 := by
        rw [hr]
        constructor <;> intro h' <;> omega
      have c125 : ((next l).1 = (125 : Int)) ↔ (decodeRune (l.input.drop l.pos)).1 = 125 := by
        rw [hr]
        constructor <;> intro h' <;> omega
      have c34 : ((next l).1 = (34 : Int)) ↔ (decodeRune (l.input.drop l.pos)).1 = 34 := by
        rw [hr]
        constructor <;> intro h' <;> omega
      have c92 : ((next l).1 = (92 : Int)) ↔ (decodeRune (l.input.drop l.pos)).1 = 92 := by
        rw [hr]
        constructor <;> intro h' <;> omega
      have hlv : jsonLevel lv q l =
          (if (decodeRune (l.input.drop l.pos)).1 = 123 ∧ q = false then lv + 1
           else if (decodeRune (l.input.drop l.pos)).1 = 125 ∧ q = false then lv - 1
           else lv) := by
        simp only [jsonLevel, c123, c125]
      have hqq : jsonQuote q l =
          (if (decodeRune (l.input.drop l.pos)).1 = 34 then !q else q) := by
        simp only [jsonQuote, c34]
      have hstep : (jsonStep l).pos = l.pos + braceWidth (l.input.drop l.pos) := by
        rw [jsonStep, braceWidth]
        by_cases h92 : (decodeRune (l.input.drop l.pos)).1 = 92
        · rw [if_pos (c92.mpr h92), if_pos h92]
          by_cases h2 : (next l).2.input.length ≤ (next l).2.pos
          · rw [next_pos_eof _ h2, next_pos_eq l hlen]
            have hnil : (l.input.drop l.pos).drop (decodeRune (l.input.drop l.pos)).2 = [] := by
              rw [next_input, next_pos_eq l hlen] at h2
              have hlz : ((l.input.drop l.pos).drop (decodeRune (l.input.drop l.pos)).2).length
                  = 0 := by
                rw [List.length_drop, List.length_drop]
                omega
              exact List.length_eq_zero.mp hlz
            rw [hnil]
            simp [decodeRune]
          · rw [next_pos_eq ((next l).2) (by omega), next_pos_eq l hlen, next_input,
              ← List.drop_drop]
            omega
        · rw [if_neg (fun hx => h92 (c92.mp hx)), if_neg h92]
          exact next_pos_eq l hlen
      have hdrop : (jsonStep l).input.drop (jsonStep l).pos =
          (l.input.drop l.pos).drop (braceWidth (l.input.drop l.pos)) := by
        rw [jsonStep_input, hstep]
        exact (List.drop_drop _ _ _).symm
      have hstep_le : (jsonStep l).pos ≤ (jsonStep l).input.length := by
        rw [jsonStep_input]
        exact jsonStep_pos_le l hp
      constructor
      · intro hb
        rw [braceSpan, if_neg hempty] at hb
        generalize hLV : (if (decodeRune (l.input.drop l.pos)).1 = 123 ∧ q = false then lv + 1
          else if (decodeRune (l.input.drop l.pos)).1 = 125 ∧ q = false then lv - 1
          else lv) = LV at hb
        have hlv' : jsonLevel lv q l = LV := hlv.trans hLV
        split at hb
        · simp at hb
        · rename_i hsp0
          have hinner : braceSpan fuel
              ((l.input.drop l.pos).drop (braceWidth (l.input.drop l.pos)))
              (if (decodeRune (l.input.drop l.pos)).1 = 34 then !q else q)
              LV = some none := by
            rcases hbi : braceSpan fuel
                ((l.input.drop l.pos).drop (braceWidth (l.input.drop l.pos)))
                (if (decodeRune (l.input.drop l.pos)).1 = 34 then !q else q)
                LV with _ | o
            · rw [hbi] at hb
              simp at hb
            · rcases o with _ | n'
              · rfl
              · rw [hbi] at hb
                simp at hb
          rw [jsonLoop, if_neg hne, if_neg (show ¬ jsonLevel lv q l = 0 by
            rw [hlv']; exact hsp0)]
          apply (ih (jsonStep l) (jsonQuote q l) (jsonLevel lv q l) hstep_le).1
          rw [hdrop, hqq, hlv']
          exact hinner
      · intro n hb
        rw [braceSpan, if_neg hempty] at hb
        generalize hLV : (if (decodeRune (l.input.drop l.pos)).1 = 123 ∧ q = false then lv + 1
          else if (decodeRune (l.input.drop l.pos)).1 = 125 ∧ q = false then lv - 1
          else lv) = LV at hb
        have hlv' : jsonLevel lv q l = LV := hlv.trans hLV
        split at hb
        · rename_i hsp0
          have hn : braceWidth (l.input.drop l.pos) = n := by
            simpa using hb
          rw [jsonLoop, if_neg hne, if_pos (show jsonLevel lv q l = 0 by
            rw [hlv']; exact hsp0)]
          refine ⟨(jsonStep l).width, fuel, ?_⟩
          have hJ : jsonStep l = (⟨l.input, l.start, l.pos + n, (jsonStep l).width⟩ : lexer) := by
            refine lexer.ext ?_ ?_ ?_ ?_
            · exact jsonStep_input l
            · exact jsonStep_start l
            · show (jsonStep l).pos = l.pos + n
              rw [hstep]
              omega
            · rfl
          rw [hJ]
        · rename_i hsp0
          have hex : ∃ n', braceSpan fuel
              ((l.input.drop l.pos).drop (braceWidth (l.input.drop l.pos)))
              (if (decodeRune (l.input.drop l.pos)).1 = 34 then !q else q)
              LV = some (some n') ∧ n = braceWidth (l.input.drop l.pos) + n' := by
            rcases hbi : braceSpan fuel
                ((l.input.drop l.pos).drop (braceWidth (l.input.drop l.pos)))
                (if (decodeRune (l.input.drop l.pos)).1 = 34 then !q else q)
                LV with _ | o
            · rw [hbi] at hb
              simp at hb
            · rcases o with _ | n'
              · rw [hbi] at hb
                simp at hb
              · rw [hbi] at hb
                simp at hb
                exact ⟨n', rfl, by omega⟩
          obtain ⟨n', hbi, hnn⟩ := hex
          obtain ⟨w', f', hj⟩ := (ih (jsonStep l) (jsonQuote q l) (jsonLevel lv q l)
            hstep_le).2 n' (by rw [hdrop, hqq, hlv']; exact hbi)
          rw [jsonLoop, if_neg hne, if_neg (show ¬ jsonLevel lv q l = 0 by
            rw [hlv']; exact hsp0), hj]
          refine ⟨w', f', ?_⟩
          have hJ : (⟨(jsonStep l).input, (jsonStep l).start, (jsonStep l).pos + n', w'⟩ : lexer)
              = (⟨l.input, l.start, l.pos + n, w'⟩ : lexer) := by
            refine lexer.ext ?_ ?_ ?_ ?_
            · exact jsonStep_input l
            · exact jsonStep_start l
            · show (jsonStep l).pos + n' = l.pos + n
              rw [hstep]
              omega
            · rfl
          rw [hJ]

/-- C6 (witness): the brace scan of the JSON example closes after
exactly the fifteen bytes of the balanced-brace span, and the loop
leaves the scan there. -/
theorem c6_witness :
    braceSpan 21 jsonInput false 0 = some (some 15) ∧
    ∃ w f, jsonLoop 21 (⟨jsonInput, 0, 0, 0⟩ : lexer) false 0 =
      jsonFinish f ⟨jsonInput, 0, 0 + 15, w⟩ :=
  ⟨by decide, (c6_theorem 21 ⟨jsonInput, 0, 0, 0⟩ false 0 (by decide)).2 15 (by decide)⟩

end Claims

end Swap
